import Mathlib

/- Shallow embedding of the website-extractor repository
   (src/scrapes/methods.py, src/tasks.py, src/main.py).
   Strings are modelled as `List Char` (ASCII fragment of Python's str);
   network fetches and the HTML-to-markdown conversion are modelled as
   oracle parameters, everything else follows the Python source line by line. -/

/-- ASCII model of Python `str.lower()`, applied characterwise. -/
def lowerL (s : List Char) : List Char := s.map Char.toLower

/-- ASCII whitespace, modelling Python's `str.strip()` / regex class `\s`. -/
def isPySpace (c : Char) : Bool :=
  c == ' ' || c == '\t' || c == '\n' || c == '\r' || c == Char.ofNat 11 || c == Char.ofNat 12

/-- Python `str.strip(chars)`: drop characters satisfying `p` from both ends. -/
def stripWhile (p : Char → Bool) (s : List Char) : List Char :=
  ((s.dropWhile p).reverse.dropWhile p).reverse

/-- Python `str.strip()` (whitespace on both ends). -/
def stripWs (s : List Char) : List Char := stripWhile isPySpace s

/-- Components of a parsed URL that the source actually uses. -/
structure UrlParts where
  scheme : List Char
  netloc : List Char
  path : List Char
deriving DecidableEq

/-- Characters allowed in a URL scheme (after the leading letter). -/
def isSchemeChar (c : Char) : Bool := c.isAlphanum || c == '+' || c == '-' || c == '.'

/-- A valid scheme name: a letter followed by scheme characters. -/
def validSchemeName (s : List Char) : Bool :=
  match s with
  | [] => false
  | c :: _ => c.isAlpha && s.all isSchemeChar

/-- Characters terminating the network-location component. -/
def isNetlocDelim (c : Char) : Bool := c == '/' || c == '?' || c == '#'

/-- Shallow model of Python `urllib.parse.urlparse`, restricted to the
scheme / netloc / path components used by the source. -/
def urlparse (url : List Char) : UrlParts :=
  let pre := url.takeWhile (fun c => !(c == ':'))
  let hasScheme := decide (pre.length < url.length) && validSchemeName pre
  let scheme := if hasScheme then lowerL pre else []
  let rest1 := if hasScheme then url.drop (pre.length + 1) else url
  let hasNetloc := (("//").data).isPrefixOf rest1
  let netloc := if hasNetloc then (rest1.drop 2).takeWhile (fun c => !(isNetlocDelim c)) else []
  let rest2 := if hasNetloc then (rest1.drop 2).dropWhile (fun c => !(isNetlocDelim c)) else rest1
  let path := rest2.takeWhile (fun c => !(c == '?' || c == '#'))
  ⟨scheme, netloc, path⟩

/-- Python `urlparse(url).hostname or "unknown"`: the netloc after the
userinfo, before the port, lower-cased; `"unknown"` when empty. -/
def hostnameOr (url : List Char) : List Char :=
  let n := (urlparse url).netloc
  let afterAt := (n.reverse.takeWhile (fun c => !(c == '@'))).reverse
  let host := lowerL (afterAt.takeWhile (fun c => !(c == ':')))
  if host.isEmpty then ("unknown").data else host

/-- One left-to-right pass of `re.sub` collapsing runs of `target` of
length at least `minRun` to `rep`; runs shorter than `minRun` are kept.
`fuel` bounds the recursion; `fuel = s.length` always suffices because
each step consumes at least one character. -/
def collapseRun (target : Char) (minRun : Nat) (rep : List Char) : Nat → List Char → List Char
  | 0, s => s
  | _+1, [] => []
  | fuel+1, c :: cs =>
    if c = target then
      (if minRun ≤ (cs.takeWhile (fun x => x == target)).length + 1 then rep
       else c :: cs.takeWhile (fun x => x == target)) ++
        collapseRun target minRun rep fuel (cs.dropWhile (fun x => x == target))
    else c :: collapseRun target minRun rep fuel cs

/-- Python regex `\w` restricted to ASCII, as used by `sanitize_filename`. -/
def isWordCharA (c : Char) : Bool := c.isAlphanum || c == '_'

/-- Characters kept by the class `[^\w\-_.]` in `sanitize_filename`. -/
def sanitizeKeep (c : Char) : Bool := isWordCharA c || c == '-' || c == '.'

/-- `sanitize_filename` before the length cut and the fallback: build
hostname+path, replace disallowed characters by `_`, collapse `_` runs,
strip `_` from both ends (src/scrapes/methods.py lines 23-28). -/
def sanitizeCore (url : List Char) : List Char :=
  let name0 := hostnameOr url ++ (urlparse url).path
  let name1 := name0.map (fun c => if sanitizeKeep c then c else '_')
  stripWhile (fun c => c == '_') (collapseRun '_' 1 (['_']) name1.length name1)

/-- `sanitize_filename` (src/scrapes/methods.py lines 23-31, identical in
src/tasks.py and src/main.py). -/
def sanitize_filename (url : List Char) : List Char :=
  let name := sanitizeCore url
  let name2 := if 100 < name.length then name.take 100 else name
  if name2.isEmpty then ("extracted_content").data else name2

/-- The fixed image extension set shared by both extractors. -/
def imageExtensions : List (List Char) :=
  [(".jpg").data, (".jpeg").data, (".png").data, (".gif").data, (".webp").data,
   (".svg").data, (".bmp").data, (".ico").data, (".tiff").data, (".avif").data]

/-- `is_image_url`: lower-case, strip the query string, test the suffix
against the fixed extension set. -/
def is_image_url (url : List Char) : Bool :=
  let url_lower := (lowerL url).takeWhile (fun c => !(c == '?'))
  imageExtensions.any (fun e => e.isSuffixOf url_lower)

/-- `url.startswith(("http://", "https://"))`. -/
def isHttpUrl (url : List Char) : Bool :=
  (("http://").data).isPrefixOf url || (("https://").data).isPrefixOf url

/-- Python `pat in s` on strings: substring containment. -/
def hasSubstr (pat : List Char) : List Char → Bool
  | [] => pat.isEmpty
  | c :: cs => pat.isPrefixOf (c :: cs) || hasSubstr pat cs

/-- Matcher for the regex `\[([^\]]+)\]\(([^)]+)\)` at the current
position: returns `((label, url), rest-after-match)` on success. -/
def matchMdLink : List Char → Option ((List Char × List Char) × List Char)
  | '[' :: r =>
    let label := r.takeWhile (fun c => !(c == ']'))
    (match r.dropWhile (fun c => !(c == ']')) with
     | ']' :: '(' :: r2 =>
       let url := r2.takeWhile (fun c => !(c == ')'))
       (match r2.dropWhile (fun c => !(c == ')')) with
        | ')' :: r3 => if label.isEmpty || url.isEmpty then none else some ((label, url), r3)
        | _ => none)
     | _ => none)
  | _ => none

/-- Matcher for the regex `!\[([^\]]*)\]\(([^)]+)\)` (markdown image):
the alt text may be empty, the url may not. -/
def matchMdImage : List Char → Option ((List Char × List Char) × List Char)
  | '!' :: '[' :: r =>
    let alt := r.takeWhile (fun c => !(c == ']'))
    (match r.dropWhile (fun c => !(c == ']')) with
     | ']' :: '(' :: r2 =>
       let url := r2.takeWhile (fun c => !(c == ')'))
       (match r2.dropWhile (fun c => !(c == ')')) with
        | ')' :: r3 => if url.isEmpty then none else some ((alt, url), r3)
        | _ => none)
     | _ => none)
  | _ => none

/-- Characters matched by `[^\s\)\]\>\"\']` in the bare-URL regex. -/
def isUrlChar (c : Char) : Bool :=
  !(isPySpace c || c == ')' || c == ']' || c == '>' || c == Char.ofNat 34 || c == Char.ofNat 39)

/-- Match `[^\s\)\]\>\"\']+` after a recognised `https?://` head `pre`. -/
def matchBareUrlAt (pre r : List Char) : Option (List Char × List Char) :=
  if (r.takeWhile isUrlChar).isEmpty then none
  else some (pre ++ r.takeWhile isUrlChar, r.dropWhile isUrlChar)

/-- Matcher for the regex `https?://[^\s\)\]\>\"\']+` at the current
position (greedy optional `s`, then at least one URL character). -/
def matchBareUrl (s : List Char) : Option (List Char × List Char) :=
  if (("https://").data).isPrefixOf s then matchBareUrlAt (("https://").data) (s.drop 8)
  else if (("http://").data).isPrefixOf s then matchBareUrlAt (("http://").data) (s.drop 7)
  else none

/-- `re.findall` scan: try a match at each position, skip past matches,
advance one character on failure.  `fuel = s.length` suffices because
every step consumes at least one character. -/
def scanAux {α : Type} (m : List Char → Option (α × List Char)) : Nat → List Char → List α
  | 0, _ => []
  | _+1, [] => []
  | fuel+1, c :: cs =>
    match m (c :: cs) with
    | some (a, rest) => a :: scanAux m fuel rest
    | none => scanAux m fuel cs

/-- `re.sub(pattern, "", s)` scan: delete every non-overlapping match. -/
def subScan (m : List Char → Option (List Char)) : Nat → List Char → List Char
  | 0, s => s
  | _+1, [] => []
  | fuel+1, c :: cs =>
    match m (c :: cs) with
    | some rest => subScan m fuel rest
    | none => c :: subScan m fuel cs

/-- The markdown-image matcher viewed as a deleting substitution. -/
def subMdImage (s : List Char) : Option (List Char) :=
  match matchMdImage s with
  | some pr => some pr.2
  | none => none

/-- Python `str.replace(pat, rep)`: replace all non-overlapping
occurrences left to right in a single pass (no iteration to fixpoint).
An empty pattern leaves the string unchanged, matching
`s.replace("", "")`. -/
def replaceAll (pat rep : List Char) : Nat → List Char → List Char
  | 0, s => s
  | _+1, [] => []
  | fuel+1, c :: cs =>
    if pat ≠ [] ∧ pat.isPrefixOf (c :: cs) = true then
      rep ++ replaceAll pat rep fuel (List.drop (pat.length - 1) cs)
    else c :: replaceAll pat rep fuel cs

/-- `str.replace` with the canonical fuel. -/
def replaceAllStr (pat rep s : List Char) : List Char :=
  replaceAll pat rep s.length s

/-- `path.rsplit("/", 1)[0]`: the path with its last `/`-segment removed
(the whole path when it contains no slash). -/
def rsplitHead (path : List Char) : List Char :=
  if path.contains '/' then ((path.reverse.dropWhile (fun c => !(c == '/'))).tail).reverse
  else path

/-- Resolution of a `/`-leading relative url (src/scrapes/methods.py
lines 110-113): the base's scheme and netloc glued to the target. -/
def resolveRootRel (base_url url : List Char) : List Char :=
  (urlparse base_url).scheme ++ (("://").data) ++ (urlparse base_url).netloc ++ url

/-- Resolution of a bare relative url (src/scrapes/methods.py lines
116-125): join to the base directory path, then one literal substitution
pass each for `/../` and `/./`. -/
def resolveBareRel (base_url url : List Char) : List Char :=
  let pb := urlparse base_url
  let bp0 := rsplitHead pb.path
  let bp := if (("/").data).isSuffixOf bp0 then bp0 else bp0 ++ (("/").data)
  let full0 := pb.scheme ++ (("://").data) ++ pb.netloc ++ bp ++ url
  replaceAllStr (("/./").data) (("/").data) (replaceAllStr (("/../").data) (("/").data) full0)

/-- Processing of one markdown-link candidate inside
`extract_urls_from_markdown` (src/scrapes/methods.py lines 103-127):
image skip, absolute same-domain test, `/`-relative join, bare relative
join with the single-pass `/../` and `/./` substitution. -/
def processMdLink (base_url url : List Char) : Option (List Char) :=
  if is_image_url url then none
  else if isHttpUrl url then
    (if hasSubstr (lowerL (urlparse base_url).netloc) (lowerL (urlparse url).netloc)
     then some url else none)
  else if (("/").data).isPrefixOf url then
    (if is_image_url (resolveRootRel base_url url) then none
     else some (resolveRootRel base_url url))
  else if (!((("#").data).isPrefixOf url || (("javascript:").data).isPrefixOf url
        || (("mailto:").data).isPrefixOf url || (("tel:").data).isPrefixOf url))
      && url.contains '.' then
    (if is_image_url (resolveBareRel base_url url) then none
     else some (resolveBareRel base_url url))
  else none

/-- `set.add` on an insertion-ordered list representation of a set. -/
def insertSet (acc : List (List Char)) (u : List Char) : List (List Char) :=
  if u ∈ acc then acc else acc ++ [u]

/-- `extract_urls_from_markdown` (src/scrapes/methods.py lines 78-137,
identical in src/tasks.py): markdown links then bare URLs, same-domain
substring filter, image filter; the Python `set` is modelled as an
insertion-ordered duplicate-free list. -/
def extract_urls_from_markdown (content base_url : List Char) : List (List Char) :=
  let base_netloc := lowerL (urlparse base_url).netloc
  let mdLinks := scanAux matchMdLink content.length content
  let s1 := mdLinks.foldl
    (fun acc lu =>
      match processMdLink base_url (stripWs lu.2) with
      | some u => insertSet acc u
      | none => acc) []
  let bare := scanAux matchBareUrl content.length content
  bare.foldl
    (fun acc u =>
      if is_image_url u then acc
      else if hasSubstr base_netloc (lowerL (urlparse u).netloc) then insertSet acc u
      else acc) s1

/-- `extract_images_from_markdown` (src/scrapes/methods.py lines 34-75,
identical in src/tasks.py): collect markdown-image urls (stripped),
delete the markdown-image occurrences, collect bare image urls, delete
every collected url, collapse newline and space runs, strip. -/
def extract_images_from_markdown (mdc : List Char) : List Char × List (List Char) :=
  let md_images := scanAux matchMdImage mdc.length mdc
  let imgs0 := md_images.map (fun p => stripWs p.2)
  let content0 := subScan subMdImage mdc.length mdc
  let bare := scanAux matchBareUrl content0.length content0
  let images := imgs0 ++ bare.filter (fun u => is_image_url u)
  let content1 := images.foldl (fun c u => replaceAllStr u [] c) content0
  let content2 := collapseRun '\n' 3 (['\n', '\n']) content1.length content1
  let content3 := collapseRun ' ' 2 ([' ']) content2.length content2
  (stripWs content3, images)

/-- The dict returned by the Celery task `extract_single_url`
(src/tasks.py lines 220-225). -/
structure TaskResult where
  url : List Char
  content : List Char
  images : List (List Char)
  linked_urls : List (List Char)
deriving DecidableEq

/-- One entry of the crawl results / one stored Website row:
`{url, content, images}`. -/
structure PageEntry where
  url : List Char
  content : List Char
  images : List (List Char)
deriving DecidableEq

/-- The body of `extract_single_url` (src/tasks.py lines 190-225): fetch
and markdown-convert (modelled by the oracle `fetchMd`), optionally
separate images, and compute the linked urls from the pre-separation
markdown.  `none` models the raised exception. -/
def extract_single_url (fetchMd : List Char → Option (List Char)) (url : List Char)
    (include_images : Bool) : Option TaskResult :=
  match fetchMd url with
  | none => none
  | some mdc =>
    let ci := if include_images then extract_images_from_markdown mdc else (mdc, [])
    some ⟨url, ci.1, ci.2, extract_urls_from_markdown mdc url⟩

/-- `max_retries=3` from the task decorator (src/tasks.py line 183). -/
def max_retries : Nat := 3

/-- `default_retry_delay=60` from the task decorator (src/tasks.py line 183). -/
def default_retry_delay : Nat := 60

/-- Modelled from the spec: the task-queue runtime's retry loop (the
`self.retry` machinery lives in the external Celery runtime, not under
src/).  Attempt `i` runs `f i`; on failure the runtime waits
`default_retry_delay` and retries, up to `remaining` total runs.
Returns (result, number of runs performed, list of delays waited). -/
def retryGo {α : Type} (f : Nat → Option α) (i : Nat) : Nat → Option α × Nat × List Nat
  | 0 => (none, 0, [])
  | remaining+1 =>
    match f i, remaining with
    | some a, _ => (some a, 1, [])
    | none, 0 => (none, 1, [])
    | none, r+1 =>
      ((retryGo f (i+1) (r+1)).1, (retryGo f (i+1) (r+1)).2.1 + 1,
       default_retry_delay :: (retryGo f (i+1) (r+1)).2.2)

/-- One unit of batch work: `extract_single_url` under the retry policy
(initial run plus up to `max_retries` retries).  The fetch oracle is
attempt-indexed so transient failures can be modelled. -/
def run_task (fetch : List Char → Nat → Option (List Char)) (url : List Char)
    (include_images : Bool) : Option TaskResult × Nat × List Nat :=
  retryGo (fun i => extract_single_url (fun u => fetch u i) url include_images) 0
    (max_retries + 1)

/-- Batch building in `extract_website_recursive` (src/tasks.py lines
248-252): walk the frontier, skip visited or too-deep urls, mark the
rest visited and collect them.  Returns (new visited, batch). -/
def buildBatch (max_depth : Nat) : List (List Char × Nat) → List (List Char) →
    List (List Char) × List (List Char × Nat)
  | [], visited => (visited, [])
  | (u, d) :: rest, visited =>
    if u ∈ visited ∨ max_depth < d then buildBatch max_depth rest visited
    else
      let r := buildBatch max_depth rest (visited ++ [u])
      (r.1, (u, d) :: r.2)

/-- Frontier contribution of one successful task (src/tasks.py lines
281-284): links are expanded only when `depth < max_depth`, and only
links not already visited are queued at `depth + 1`. -/
def collectLinks (max_depth : Nat) (visited : List (List Char)) (depth : Nat)
    (links : List (List Char)) : List (List Char × Nat) :=
  if depth < max_depth then
    (links.filter (fun l => !(decide (l ∈ visited)))).map (fun l => (l, depth + 1))
  else []

/-- Result processing of one wave (src/tasks.py lines 270-284): failed
tasks contribute neither a result entry nor frontier links. -/
def processBatch (max_depth : Nat) (visited : List (List Char)) :
    List ((List Char × Nat) × Option TaskResult) → List PageEntry × List (List Char × Nat)
  | [] => ([], [])
  | ((_, d), res) :: rest =>
    let r := processBatch max_depth visited rest
    match res with
    | none => r
    | some t =>
      (⟨t.url, t.content, t.images⟩ :: r.1, collectLinks max_depth visited d t.linked_urls ++ r.2)

/-- The wave loop of `extract_website_recursive` (src/tasks.py lines
243-286).  `fuel` bounds the `while`; `max_depth + 2` waves always
suffice because wave `k` only holds urls at depth `k`.  Besides the
results the model also records every wave's batch (the fetched urls),
which the source prints implicitly by dispatching tasks. -/
def bfsLoop (fetch : List Char → Nat → Option (List Char)) (max_depth : Nat)
    (include_images : Bool) : Nat → List (List Char) → List (List Char × Nat) →
    List PageEntry → List (List (List Char)) → List PageEntry × List (List (List Char))
  | 0, _, _, results, batches => (results, batches)
  | fuel+1, visited, frontier, results, batches =>
    if frontier.isEmpty then (results, batches)
    else
      let bb := buildBatch max_depth frontier visited
      if bb.2.isEmpty then (results, batches)
      else
        let batchResults := bb.2.map (fun ud => (ud, (run_task fetch ud.1 include_images).1))
        let pr := processBatch max_depth bb.1 batchResults
        bfsLoop fetch max_depth include_images fuel bb.1 pr.2 (results ++ pr.1)
          (batches ++ [bb.2.map Prod.fst])

/-- `extract_website_recursive` (src/tasks.py lines 232-288):
breadth-first, depth-bounded, deduplicated crawl.  Returns the result
entries and the list of per-wave batches. -/
def extract_website_recursive (fetch : List Char → Nat → Option (List Char))
    (start_url : List Char) (max_depth : Nat) (include_images : Bool) :
    List PageEntry × List (List (List Char)) :=
  bfsLoop fetch max_depth include_images (max_depth + 2) [] [(start_url, 0)] [] []

/-- Mutable crawl state of the single-process variant: the visited set,
the urls actually fetched (instrumentation for the dedup claims), and
the stored Website rows. -/
structure MState where
  visited : List (List Char)
  fetched : List (List Char)
  results : List PageEntry
deriving DecidableEq

/-- `Website.objects.update_or_create` keyed by url within one scrape. -/
def upsertWebsite (results : List PageEntry) (w : PageEntry) : List PageEntry :=
  if results.any (fun r => r.url == w.url) then
    results.map (fun r => if r.url == w.url then w else r)
  else results ++ [w]

/-- `extract_url_content` (src/scrapes/methods.py lines 185-266):
visited check, visited insertion, scheme check, fetch (oracle; `none`
models the caught exception), store, recursive expansion of discovered
links.  `fuel` bounds the recursion depth; `max_depth + 1` suffices
from a fresh state because recursion stops at `depth = max_depth`. -/
def extract_url_content (oracle : List Char → Option (List Char)) :
    Nat → List Char → MState → Bool → Nat → Nat → Bool → Option PageEntry × MState
  | 0, _, st, _, _, _, _ => (none, st)
  | fuel+1, url, st, recursive, depth, max_depth, include_images =>
    if url ∈ st.visited then (none, st)
    else
      let st1 : MState := { st with visited := st.visited ++ [url] }
      if isHttpUrl url = false then (none, st1)
      else
        let st2 : MState := { st1 with fetched := st1.fetched ++ [url] }
        match oracle url with
        | none => (none, st2)
        | some mdc =>
          let ci := if include_images then extract_images_from_markdown mdc else (mdc, [])
          let website : PageEntry := ⟨url, ci.1, ci.2⟩
          let st3 : MState := { st2 with results := upsertWebsite st2.results website }
          if recursive = true ∧ depth < max_depth then
            let st4 := (extract_urls_from_markdown mdc url).foldl
              (fun s lu =>
                if lu ∈ s.visited then s
                else (extract_url_content oracle fuel lu s recursive (depth+1) max_depth
                  include_images).2) st3
            (some website, st4)
          else (some website, st3)

/-- `scrape_website` (src/scrapes/methods.py lines 269-302): fresh
visited set, recursion from depth 0. -/
def scrape_website (oracle : List Char → Option (List Char)) (url : List Char)
    (recursive : Bool) (max_depth : Nat) (include_images : Bool) : MState :=
  (extract_url_content oracle (max_depth + 1) url ⟨[], [], []⟩ recursive 0 max_depth
    include_images).2

/-- `extract_url_to_markdown` (src/main.py lines 75-174): same traversal
as the scrape variant but an unsupported scheme RAISES
`ValueError("URL must start with http:// or https://")`, modelled by
`Except.error`; errors from recursive calls are caught in the loop
(lines 134-146) so only the seed's error escapes.  Returns the written
filename (collision suffixes are outside the model). -/
def extract_url_to_markdown (oracle : List Char → Option (List Char)) :
    Nat → List Char → List (List Char) → Bool → Nat → Nat →
    Except (List Char) (Option (List Char)) × List (List Char)
  | 0, _, visited, _, _, _ => (.ok none, visited)
  | fuel+1, url, visited, recursive, depth, max_depth =>
    if url ∈ visited then (.ok none, visited)
    else
      let v1 := visited ++ [url]
      if isHttpUrl url = false then
        (.error (("URL must start with http:// or https://").data), v1)
      else
        match oracle url with
        | none => (.error (("network error").data), v1)
        | some mdc =>
          let v2 := if recursive = true ∧ depth < max_depth then
              (extract_urls_from_markdown mdc url).foldl
                (fun v lu =>
                  if lu ∈ v then v
                  else (extract_url_to_markdown oracle fuel lu v recursive (depth+1)
                    max_depth).2) v1
            else v1
          (.ok (some (sanitize_filename url ++ (".md").data)), v2)

/-- Test fixture: a two-page same-host site with the link cycle
`http://h/a ↔ http://h/b` (the spec's synthetic A→B→A graph). -/
def cycFetch : List Char → Nat → Option (List Char) := fun u _ =>
  if u = ("http://h/a").data then some (("[x](http://h/b)").data)
  else if u = ("http://h/b").data then some (("[x](http://h/a)").data)
  else none

/-- The cycle fixture as an attempt-independent oracle. -/
def cycOracle (u : List Char) : Option (List Char) := cycFetch u 0

/-- Test fixture: a seed whose page links to `/a` (a url that fails on
every fetch attempt) and `/b` (a url that succeeds). -/
def c2Fetch : List Char → Nat → Option (List Char) := fun u _ =>
  if u = ("http://ex.com").data then some (("[a](/a) [b](/b)").data)
  else if u = ("http://ex.com/b").data then some (("done").data)
  else none

/-- Adjacent characters are not both spaces (the post-condition of the
space-collapsing pass). -/
def noDoubleSpace (a b : Char) : Prop := ¬(a = ' ' ∧ b = ' ')

/-- Membership in `insertSet` comes from the accumulator or is the new
element. -/
theorem mem_insertSet {acc : List (List Char)} {v u : List Char}
    (h : u ∈ insertSet acc v) : u ∈ acc ∨ u = v := by
  unfold insertSet at h
  split at h
  · exact Or.inl h
  · rcases List.mem_append.mp h with h1 | h1
    · exact Or.inl h1
    · exact Or.inr (List.mem_singleton.mp h1)

/-- Members of a fold over an inserting step are old members or satisfy
the per-element production predicate. -/
theorem mem_foldl_insert {β : Type} (step : List (List Char) → β → List (List Char))
    (P : List Char → Prop) (Q : β → Prop)
    (hstep : ∀ acc b, Q b → ∀ u ∈ step acc b, u ∈ acc ∨ P u) :
    ∀ (l : List β), (∀ b ∈ l, Q b) → ∀ (acc : List (List Char)) (u : List Char),
      u ∈ List.foldl step acc l → u ∈ acc ∨ P u := by
  intro l
  induction l with
  | nil => intro _ acc u h; exact Or.inl h
  | cons b bs ih =>
    intro hq acc u h
    rcases ih (fun x hx => hq x (List.mem_cons_of_mem _ hx)) (step acc b) u h with h2 | h2
    · exact hstep acc b (hq b (List.mem_cons_self _ _)) u h2
    · exact Or.inr h2

/-- A list is a Boolean prefix of itself followed by anything. -/
theorem isPrefixOf_append_self : ∀ (l x : List Char), l.isPrefixOf (l ++ x) = true := by
  intro l x
  exact List.isPrefixOf_iff_prefix.mpr (List.prefix_append l x)

/-- `replaceAll` with zero fuel is the identity. -/
theorem replaceAll_zero (pat rep s : List Char) : replaceAll pat rep 0 s = s := rfl

/-- A region in which the pattern matches at no position passes through
`replaceAll` unchanged. -/
theorem replaceAll_append_of_no_match (pat rep : List Char) :
    ∀ (l s : List Char), (∀ i, i < l.length → pat.isPrefixOf (List.drop i l ++ s) = false) →
    ∀ fuel, replaceAll pat rep fuel (l ++ s) = l ++ replaceAll pat rep (fuel - l.length) s := by
  intro l
  induction l with
  | nil => intro s _ fuel; simp
  | cons c l' ih =>
    intro s hno fuel
    cases fuel with
    | zero => simp [replaceAll_zero]
    | succ fuel =>
      have h0 := hno 0 (by simp)
      simp only [List.drop_zero] at h0
      have hcons : (c :: l') ++ s = c :: (l' ++ s) := rfl
      rw [hcons]
      rw [show replaceAll pat rep (fuel+1) (c :: (l' ++ s)) =
        if pat ≠ [] ∧ pat.isPrefixOf (c :: (l' ++ s)) = true then
          rep ++ replaceAll pat rep fuel (List.drop (pat.length - 1) (l' ++ s))
        else c :: replaceAll pat rep fuel (l' ++ s) from rfl]
      rw [if_neg (by rintro ⟨_, hpre⟩; simp [hpre] at h0)]
      have ih2 := ih s (fun i hi => by
        have := hno (i+1) (by simpa using Nat.succ_lt_succ hi)
        simpa using this) fuel
      rw [ih2]
      simp [Nat.succ_sub_succ]

/-- `urlparse` reads the scheme `http` off a `http://` url. -/
theorem urlparse_http_scheme (t : List Char) :
    (urlparse (("http://").data ++ t)).scheme = ("http").data := by
  show (urlparse ('h':: 't':: 't':: 'p':: ':':: '/':: '/'::t)).scheme = ("http").data
  simp [urlparse, validSchemeName, isSchemeChar, lowerL]

/-- `urlparse` reads the scheme `https` off a `https://` url. -/
theorem urlparse_https_scheme (t : List Char) :
    (urlparse (("https://").data ++ t)).scheme = ("https").data := by
  show (urlparse ('h':: 't':: 't':: 'p':: 's':: ':':: '/':: '/'::t)).scheme = ("https").data
  simp [urlparse, validSchemeName, isSchemeChar, lowerL]

/-- A web url parses to the scheme `http` or `https`. -/
theorem scheme_of_isHttpUrl {base : List Char} (h : isHttpUrl base = true) :
    (urlparse base).scheme = ("http").data ∨ (urlparse base).scheme = ("https").data := by
  have h2 : (("http://").data).isPrefixOf base = true ∨
      (("https://").data).isPrefixOf base = true := by
    simpa [isHttpUrl] using h
  rcases h2 with h1 | h1
  · obtain ⟨t, ht⟩ := List.isPrefixOf_iff_prefix.mp h1
    exact Or.inl (ht ▸ urlparse_http_scheme t)
  · obtain ⟨t, ht⟩ := List.isPrefixOf_iff_prefix.mp h1
    exact Or.inr (ht ▸ urlparse_https_scheme t)

/-- Gluing a web scheme to `://` and anything yields a web url. -/
theorem isHttpUrl_scheme_glue (sch rest : List Char)
    (hs : sch = ("http").data ∨ sch = ("https").data) :
    isHttpUrl (sch ++ (("://").data ++ rest)) = true := by
  rcases hs with h | h <;> subst h
  · show isHttpUrl (("http://").data ++ rest) = true
    unfold isHttpUrl
    rw [isPrefixOf_append_self]
    simp
  · show isHttpUrl (("https://").data ++ rest) = true
    unfold isHttpUrl
    rw [isPrefixOf_append_self]
    simp

/-- `replaceAll` with replacement `/` keeps a leading slash. -/
theorem replaceAll_slash_head (pat : List Char) :
    ∀ (fuel : Nat) (t : List Char),
      ∃ u, replaceAll pat (("/").data) fuel ('/' :: t) = '/' :: u := by
  intro fuel t
  cases fuel with
  | zero => exact ⟨t, rfl⟩
  | succ fuel =>
    rw [show replaceAll pat (("/").data) (fuel+1) ('/' :: t) =
      if pat ≠ [] ∧ pat.isPrefixOf ('/' :: t) = true then
        (("/").data) ++ replaceAll pat (("/").data) fuel (List.drop (pat.length - 1) t)
      else '/' :: replaceAll pat (("/").data) fuel t from rfl]
    split
    · exact ⟨_, rfl⟩
    · exact ⟨_, rfl⟩

/-- The two path-collapsing passes keep a `scheme://` head intact: the
pattern can match at no position inside `scheme:/`, and the replacement
restores the final slash. -/
theorem replaceAll_keeps_web_head (sch : List Char)
    (hs : sch = ("http").data ∨ sch = ("https").data)
    (pat : List Char) (hp : pat = ("/../").data ∨ pat = ("/./").data) :
    ∀ (t : List Char) (fuel : Nat),
      ∃ u, replaceAll pat (("/").data) fuel (sch ++ (("://").data ++ t)) =
        sch ++ (("://").data ++ u) := by
  intro t fuel
  have hdec : sch ++ (("://").data ++ t) = (sch ++ [':', '/']) ++ ('/' :: t) := by
    rcases hs with h | h <;> subst h <;> rfl
  rw [hdec]
  have hno : ∀ i, i < (sch ++ [':', '/']).length →
      pat.isPrefixOf (List.drop i (sch ++ [':', '/']) ++ ('/' :: t)) = false := by
    rcases hs with h | h <;> subst h <;> rcases hp with h2 | h2 <;> subst h2 <;>
      (first
        | (have hl : (("http").data ++ [':', '/'] : List Char) = ['h','t','t','p',':','/'] := rfl
           rw [hl]; intro i hi; simp only [List.length_cons, List.length_nil] at hi
           interval_cases i <;> simp [List.isPrefixOf])
        | (have hl : (("https").data ++ [':', '/'] : List Char) =
             ['h','t','t','p','s',':','/'] := rfl
           rw [hl]; intro i hi; simp only [List.length_cons, List.length_nil] at hi
           interval_cases i <;> simp [List.isPrefixOf]))
  rw [replaceAll_append_of_no_match pat _ _ _ hno fuel]
  obtain ⟨u, hu⟩ := replaceAll_slash_head pat (fuel - (sch ++ [':', '/']).length) t
  rw [hu]
  refine ⟨u, ?_⟩
  rcases hs with h | h <;> subst h <;> rfl

/-- A `/`-resolved relative link keeps the base's web scheme. -/
theorem resolveRootRel_isHttp {base url : List Char} (hb : isHttpUrl base = true) :
    isHttpUrl (resolveRootRel base url) = true := by
  unfold resolveRootRel
  simp only [List.append_assoc]
  exact isHttpUrl_scheme_glue _ _ (scheme_of_isHttpUrl hb)

/-- A bare-resolved relative link keeps the base's web scheme through
both substitution passes. -/
theorem resolveBareRel_isHttp {base url : List Char} (hb : isHttpUrl base = true) :
    isHttpUrl (resolveBareRel base url) = true := by
  simp only [resolveBareRel, replaceAllStr, List.append_assoc]
  obtain ⟨u1, hu1⟩ := replaceAll_keeps_web_head ((urlparse base).scheme)
    (scheme_of_isHttpUrl hb) ((("/../")).data) (Or.inl rfl) _ _
  rw [hu1]
  obtain ⟨u2, hu2⟩ := replaceAll_keeps_web_head ((urlparse base).scheme)
    (scheme_of_isHttpUrl hb) ((("/./")).data) (Or.inr rfl) u1 _
  rw [hu2]
  exact isHttpUrl_scheme_glue _ _ (scheme_of_isHttpUrl hb)

/-- A successful bare-URL match yields a web url. -/
theorem matchBareUrl_isHttp {s u rest : List Char}
    (h : matchBareUrl s = some (u, rest)) : isHttpUrl u = true := by
  unfold matchBareUrl matchBareUrlAt at h
  split at h
  · split at h
    · exact absurd h (by simp)
    · have hu : u = ("https://").data ++ (s.drop 8).takeWhile isUrlChar :=
        ((Prod.mk.injEq _ _ _ _).mp (Option.some.inj h)).1.symm
      rw [hu]
      unfold isHttpUrl
      rw [isPrefixOf_append_self]
      simp
  · split at h
    · split at h
      · exact absurd h (by simp)
      · have hu : u = ("http://").data ++ (s.drop 7).takeWhile isUrlChar :=
          ((Prod.mk.injEq _ _ _ _).mp (Option.some.inj h)).1.symm
        rw [hu]
        unfold isHttpUrl
        rw [isPrefixOf_append_self]
        simp
    · exact absurd h (by simp)

/-- A `/`-leading url is not an absolute web url. -/
theorem isHttpUrl_of_slash {url : List Char} (h : (("/").data).isPrefixOf url = true) :
    isHttpUrl url = false := by
  cases url with
  | nil => simp [List.isPrefixOf] at h
  | cons c t =>
    simp [List.isPrefixOf] at h
    subst h
    simp [isHttpUrl, List.isPrefixOf]

/-- Every url produced by the bare-URL scan is a web url. -/
theorem scanAux_bare_isHttp : ∀ (fuel : Nat) (s u : List Char),
    u ∈ scanAux matchBareUrl fuel s → isHttpUrl u = true := by
  intro fuel
  induction fuel with
  | zero => intro s u h; simp [scanAux] at h
  | succ fuel ih =>
    intro s u h
    cases s with
    | nil => simp [scanAux] at h
    | cons c cs =>
      cases hm : matchBareUrl (c :: cs) with
      | none =>
        simp only [scanAux, hm] at h
        exact ih cs u h
      | some pr =>
        obtain ⟨a, rest⟩ := pr
        simp only [scanAux, hm] at h
        rcases List.mem_cons.mp h with h1 | h1
        · exact h1 ▸ matchBareUrl_isHttp hm
        · exact ih rest u h1

/-- A successfully processed markdown-link candidate is an absolute web
url and not an image url (given a web base). -/
theorem processMdLink_sound {base url u : List Char} (hb : isHttpUrl base = true)
    (h : processMdLink base url = some u) :
    isHttpUrl u = true ∧ is_image_url u = false := by
  unfold processMdLink at h
  split at h
  · exact absurd h (by simp)
  · split at h
    · split at h
      · exact ⟨Option.some.inj h ▸ (by assumption), Option.some.inj h ▸ (by
          rename_i himg _ _
          simpa using himg)⟩
      · exact absurd h (by simp)
    · split at h
      · split at h
        · exact absurd h (by simp)
        · refine ⟨Option.some.inj h ▸ resolveRootRel_isHttp hb, Option.some.inj h ▸ ?_⟩
          rename_i himg2
          simpa using himg2
      · split at h
        · split at h
          · exact absurd h (by simp)
          · refine ⟨Option.some.inj h ▸ resolveBareRel_isHttp hb, Option.some.inj h ▸ ?_⟩
            rename_i himg2
            simpa using himg2
        · exact absurd h (by simp)

/-- C4: a non-image absolute http(s) markdown-link candidate is kept iff
the lower-cased base netloc is a SUBSTRING of the lower-cased candidate
netloc (permissive containment, not equality); on the spec's example
content with base `https://example.com/a/b` the discovered set is
exactly `{https://example.com/x, https://example.com/z}`, and a
subdomain candidate `https://sub.example.com/x` is kept although its
netloc differs from the base's. -/
theorem c4_same_domain_filter :
    (∀ (base url : List Char), isHttpUrl url = true → is_image_url url = false →
      (processMdLink base url = some url ↔
        hasSubstr (lowerL (urlparse base).netloc) (lowerL (urlparse url).netloc) = true)) ∧
    extract_urls_from_markdown
        (("[a](https://example.com/x) [b](https://other.com/y) [c](/z)").data)
        (("https://example.com/a/b").data) =
      [("https://example.com/x").data, ("https://example.com/z").data] ∧
    extract_urls_from_markdown (("[a](https://sub.example.com/x)").data)
        (("https://example.com/a").data) = [("https://sub.example.com/x").data] := by
  refine ⟨?_, by decide, by decide⟩
  intro base url h1 h2
  cases hs : hasSubstr (lowerL (urlparse base).netloc) (lowerL (urlparse url).netloc) <;>
    simp [processMdLink, h1, h2, hs]

/-- C4 witness: the absolute-candidate iff applied at the spec's example
input. -/
theorem c4_witness :
    processMdLink (("https://example.com/a/b").data) (("https://example.com/x").data) =
      some (("https://example.com/x").data) :=
  (c4_same_domain_filter.1 (("https://example.com/a/b").data)
    (("https://example.com/x").data) (by decide) (by decide)).mpr (by decide)

/-- C5: a `/`-leading target resolves to scheme + netloc + target; a
bare relative target (no leading `/`, not a non-web scheme, containing a
dot) resolves to the base directory path followed by one literal
substitution pass each for `/../` and `/./`; the pass replaces each
occurrence once, so `/a/../../b` collapses only to `/a/../b`, and the
end-to-end resolution of `x/../../y.html` against
`http://ex.com/d/e.html` is the partially resolved
`http://ex.com/d/x/../y.html`. -/
theorem c5_relative_resolution :
    (∀ (base url : List Char), (("/").data).isPrefixOf url = true →
      is_image_url url = false → is_image_url (resolveRootRel base url) = false →
      processMdLink base url = some (resolveRootRel base url)) ∧
    (∀ (base url : List Char), is_image_url url = false →
      isHttpUrl url = false → (("/").data).isPrefixOf url = false →
      ((("#").data).isPrefixOf url || (("javascript:").data).isPrefixOf url
        || (("mailto:").data).isPrefixOf url || (("tel:").data).isPrefixOf url) = false →
      url.contains '.' = true →
      is_image_url (resolveBareRel base url) = false →
      processMdLink base url = some (resolveBareRel base url)) ∧
    replaceAllStr (("/../").data) (("/").data) (("/a/../../b").data) = ("/a/../b").data ∧
    processMdLink (("http://ex.com/d/e.html").data) (("x/../../y.html").data) =
      some (("http://ex.com/d/x/../y.html").data) := by
  refine ⟨?_, ?_, by decide, by decide⟩
  · intro base url hslash h2 h3
    have hh : isHttpUrl url = false := isHttpUrl_of_slash hslash
    simp [processMdLink, h2, hh, hslash, h3]
  · intro base url h2 hh hslash hpre hdot h3
    simp only [Bool.or_eq_false_iff] at hpre
    have hdot2 : '.' ∈ url := by simpa using hdot
    simp [processMdLink, h2, hh, hslash, hpre.1, hpre.2, hdot2, h3]

/-- C5 witness: both resolution rules applied at concrete inputs. -/
theorem c5_witness :
    processMdLink (("https://example.com/a/b").data) (("/z").data) =
      some (("https://example.com/z").data) ∧
    processMdLink (("http://ex.com/d/e.html").data) (("x/../../y.html").data) =
      some (("http://ex.com/d/x/../y.html").data) := by
  constructor
  · have h := c5_relative_resolution.1 (("https://example.com/a/b").data) (("/z").data)
      (by decide) (by decide) (by decide)
    rw [h]
    decide
  · have h := (c5_relative_resolution.2.1 (("http://ex.com/d/e.html").data)
      (("x/../../y.html").data) (by decide) (by decide) (by decide) (by decide)
      (by decide) (by decide))
    rw [h]
    decide

/-- C8: with a web base url, every url discovered by
`extract_urls_from_markdown` is an absolute http(s) url and never
passes the image-suffix test — no relative, non-web-scheme or image
url reaches the output set. -/
theorem c8_discovered_urls_wellformed :
    ∀ (content base : List Char), isHttpUrl base = true →
    ∀ u ∈ extract_urls_from_markdown content base,
      isHttpUrl u = true ∧ is_image_url u = false := by
  intro content base hb u hu
  simp only [extract_urls_from_markdown] at hu
  have step2 : ∀ acc b, isHttpUrl b = true →
      ∀ v ∈ (fun acc u =>
        if is_image_url u then acc
        else if hasSubstr (lowerL (urlparse base).netloc) (lowerL (urlparse u).netloc)
        then insertSet acc u else acc) acc b,
        v ∈ acc ∨ (isHttpUrl v = true ∧ is_image_url v = false) := by
    intro acc b hqb v hv
    dsimp only at hv
    split at hv
    · exact Or.inl hv
    · split at hv
      · rcases mem_insertSet hv with h1 | h1
        · exact Or.inl h1
        · subst h1
          refine Or.inr ⟨hqb, ?_⟩
          rename_i himg _
          simpa using himg
      · exact Or.inl hv
  have hql : ∀ b ∈ scanAux matchBareUrl content.length content, isHttpUrl b = true :=
    fun b hbm => scanAux_bare_isHttp _ _ _ hbm
  have step1 : ∀ acc (lu : List Char × List Char), True →
      ∀ v ∈ (fun acc (lu : List Char × List Char) =>
        match processMdLink base (stripWs lu.2) with
        | some w => insertSet acc w
        | none => acc) acc lu,
        v ∈ acc ∨ (isHttpUrl v = true ∧ is_image_url v = false) := by
    intro acc lu _ v hv
    dsimp only at hv
    cases hp : processMdLink base (stripWs lu.2) with
    | none => rw [hp] at hv; exact Or.inl hv
    | some w =>
      rw [hp] at hv
      rcases mem_insertSet hv with h1 | h1
      · exact Or.inl h1
      · subst h1
        exact Or.inr (processMdLink_sound hb hp)
  rcases mem_foldl_insert _ _ _ step2 _ hql _ u hu with hs1 | hP
  · rcases mem_foldl_insert _ _ _ step1 _ (fun _ _ => trivial) _ u hs1 with h0 | hP
    · exact absurd h0 (List.not_mem_nil u)
    · exact hP
  · exact hP

/-- C8 witness: the invariant applied to a concrete discovered url. -/
theorem c8_witness :
    isHttpUrl (("https://example.com/x").data) = true ∧
    is_image_url (("https://example.com/x").data) = false :=
  c8_discovered_urls_wellformed
    (("[a](https://example.com/x) [b](https://other.com/y) [c](/z)").data)
    (("https://example.com/a/b").data) (by decide)
    (("https://example.com/x").data) (by decide)

/-- The head of a `dropWhile` result fails the predicate. -/
theorem head_dropWhile_not (p : Char → Bool) : ∀ (l : List Char) (c : Char),
    (l.dropWhile p).head? = some c → p c = false := by
  intro l
  induction l with
  | nil => intro c h; simp [List.dropWhile] at h
  | cons a as ih =>
    intro c h
    rw [List.dropWhile_cons] at h
    by_cases hp : p a
    · rw [if_pos hp] at h; exact ih c h
    · rw [if_neg hp] at h
      simp at h
      rw [← h]
      simpa using hp

theorem collapseRun_sp_head : ∀ (fuel : Nat) (s : List Char),
    (collapseRun ' ' 2 ([' ']) fuel s).head? = s.head? := by
  intro fuel s
  cases fuel with
  | zero => rfl
  | succ fuel =>
    cases s with
    | nil => rfl
    | cons c cs =>
      by_cases hc : c = ' '
      · subst hc
        rw [show collapseRun ' ' 2 ([' ']) (fuel+1) (' ' :: cs) =
          (if 2 ≤ (cs.takeWhile (fun x => x == ' ')).length + 1 then ([' '] : List Char)
           else ' ' :: cs.takeWhile (fun x => x == ' ')) ++
            collapseRun ' ' 2 ([' ']) fuel (cs.dropWhile (fun x => x == ' ')) from by
          simp [collapseRun]]
        split <;> rfl
      · rw [show collapseRun ' ' 2 ([' ']) (fuel+1) (c :: cs) =
          c :: collapseRun ' ' 2 ([' ']) fuel cs from by simp [collapseRun, hc]]
        rfl

theorem collapseRun_sp_chain : ∀ (fuel : Nat) (s : List Char), s.length ≤ fuel →
    List.Chain' noDoubleSpace (collapseRun ' ' 2 ([' ']) fuel s) := by
  intro fuel
  induction fuel with
  | zero =>
    intro s hs
    have h0 : s = [] := List.length_eq_zero.mp (Nat.le_zero.mp hs)
    subst h0
    simp [collapseRun]
  | succ fuel ih =>
    intro s hs
    cases s with
    | nil => simp [collapseRun]
    | cons c cs =>
      by_cases hc : c = ' '
      · subst hc
        rw [show collapseRun ' ' 2 ([' ']) (fuel+1) (' ' :: cs) =
          (if 2 ≤ (cs.takeWhile (fun x => x == ' ')).length + 1 then ([' '] : List Char)
           else ' ' :: cs.takeWhile (fun x => x == ' ')) ++
            collapseRun ' ' 2 ([' ']) fuel (cs.dropWhile (fun x => x == ' ')) from by
          simp [collapseRun]]
        have hrun : (if 2 ≤ (cs.takeWhile (fun x => x == ' ')).length + 1 then ([' '] : List Char)
           else ' ' :: cs.takeWhile (fun x => x == ' ')) = [' '] := by
          split
          · rfl
          · rename_i hlt
            have h0 : (cs.takeWhile (fun x => x == ' ')).length = 0 := by omega
            rw [List.length_eq_zero.mp h0]
        rw [hrun]
        refine List.chain'_append.mpr ⟨List.chain'_singleton ' ', ?_, ?_⟩
        · refine ih _ ?_
          have h1 := (List.dropWhile_sublist (l := cs) (fun x => x == ' ')).length_le
          have h2 : cs.length ≤ fuel := by simpa using hs
          omega
        · intro x hx y hy
          simp at hx
          subst hx
          rw [collapseRun_sp_head] at hy
          have := head_dropWhile_not _ _ _ hy
          intro hcon
          rw [hcon.2] at this
          simp at this
      · rw [show collapseRun ' ' 2 ([' ']) (fuel+1) (c :: cs) =
          c :: collapseRun ' ' 2 ([' ']) fuel cs from by simp [collapseRun, hc]]
        refine List.chain'_cons'.mpr ⟨?_, ih cs (by simpa using Nat.succ_le_succ_iff.mp hs)⟩
        intro y _
        exact fun hcon => hc hcon.1

theorem exists_append_dropWhile (p : Char → Bool) (l : List Char) :
    ∃ w, l = w ++ l.dropWhile p :=
  ⟨l.takeWhile p, (List.takeWhile_append_dropWhile p l).symm⟩

theorem chain'_stripWhile {R : Char → Char → Prop} (p : Char → Bool) {s : List Char}
    (h : List.Chain' R s) : List.Chain' R (stripWhile p s) := by
  obtain ⟨w1, hw1⟩ := exists_append_dropWhile p s
  obtain ⟨w2, hw2⟩ := exists_append_dropWhile p (s.dropWhile p).reverse
  have hu : s.dropWhile p = stripWhile p s ++ w2.reverse := by
    unfold stripWhile
    calc s.dropWhile p = ((s.dropWhile p).reverse).reverse := (List.reverse_reverse _).symm
    _ = (w2 ++ ((s.dropWhile p).reverse.dropWhile p)).reverse := by rw [← hw2]
    _ = ((s.dropWhile p).reverse.dropWhile p).reverse ++ w2.reverse := by
        rw [List.reverse_append]
  have hs2 : s = w1 ++ (stripWhile p s ++ w2.reverse) := by rw [← hu, ← hw1]
  rw [hs2] at h
  exact (List.chain'_append.mp ((List.chain'_append.mp h).2.1)).1

/-- C6: on the spec's example the markdown image is removed into the
images list and the double space collapses to one (`"See and text"`);
a bare image URL is likewise removed; and in general the cleaned
content of `extract_images_from_markdown` never contains two adjacent
spaces (space runs collapse and trimming preserves this). -/
theorem c6_image_separation :
    extract_images_from_markdown (("See ![alt](https://example.com/pic.png) and text").data) =
      (("See and text").data, [("https://example.com/pic.png").data]) ∧
    extract_images_from_markdown (("Look https://ex.com/a.png here").data) =
      (("Look here").data, [("https://ex.com/a.png").data]) ∧
    (∀ s : List Char, List.Chain' noDoubleSpace (extract_images_from_markdown s).1) := by
  refine ⟨by decide, by decide, ?_⟩
  intro s
  simp only [extract_images_from_markdown]
  exact chain'_stripWhile _ (collapseRun_sp_chain _ _ (le_refl _))

/-- Characters survive `collapseRun` only from the input or the
replacement. -/
theorem collapseRun_subset (target : Char) (minRun : Nat) (rep : List Char) :
    ∀ (fuel : Nat) (s : List Char) (c : Char),
      c ∈ collapseRun target minRun rep fuel s → c ∈ s ∨ c ∈ rep := by
  intro fuel
  induction fuel with
  | zero => intro s c h; exact Or.inl h
  | succ fuel ih =>
    intro s c h
    cases s with
    | nil => simp [collapseRun] at h
    | cons a cs =>
      by_cases ha : a = target
      · subst ha
        rw [show collapseRun a minRun rep (fuel+1) (a :: cs) =
          (if minRun ≤ (cs.takeWhile (fun x => x == a)).length + 1 then rep
           else a :: cs.takeWhile (fun x => x == a)) ++
            collapseRun a minRun rep fuel (cs.dropWhile (fun x => x == a)) from by
          simp [collapseRun]] at h
        rcases List.mem_append.mp h with h1 | h1
        · split at h1
          · exact Or.inr h1
          · rcases List.mem_cons.mp h1 with h2 | h2
            · subst h2; exact Or.inl (List.mem_cons_self _ _)
            · exact Or.inl (List.mem_cons_of_mem _ ((List.takeWhile_sublist _).subset h2))
        · rcases ih _ c h1 with h2 | h2
          · exact Or.inl (List.mem_cons_of_mem _ ((List.dropWhile_sublist _).subset h2))
          · exact Or.inr h2
      · rw [show collapseRun target minRun rep (fuel+1) (a :: cs) =
          a :: collapseRun target minRun rep fuel cs from by simp [collapseRun, ha]] at h
        rcases List.mem_cons.mp h with h2 | h2
        · subst h2; exact Or.inl (List.mem_cons_self _ _)
        · rcases ih cs c h2 with h3 | h3
          · exact Or.inl (List.mem_cons_of_mem _ h3)
          · exact Or.inr h3

/-- Stripping both ends only removes characters. -/
theorem stripWhile_subset (p : Char → Bool) (s : List Char) : stripWhile p s ⊆ s := by
  intro c hc
  unfold stripWhile at hc
  have h1 := List.mem_reverse.mp hc
  have h2 := (List.dropWhile_sublist p).subset h1
  have h3 := List.mem_reverse.mp h2
  exact (List.dropWhile_sublist p).subset h3

/-- Every character of the sanitized core is a word character, hyphen,
underscore or dot. -/
theorem sanitizeCore_chars (u : List Char) : ∀ c ∈ sanitizeCore u, sanitizeKeep c = true := by
  intro c hc
  unfold sanitizeCore at hc
  have h1 := stripWhile_subset _ _ hc
  rcases collapseRun_subset _ _ _ _ _ _ h1 with h2 | h2
  · obtain ⟨a, _, ha2⟩ := List.mem_map.mp h2
    by_cases hk : sanitizeKeep a = true
    · rw [← ha2, if_pos hk]; exact hk
    · rw [← ha2, if_neg hk]; decide
  · simp at h2; subst h2; decide

/-- C10: for every input string `sanitize_filename` returns a non-empty
string of length at most 100 whose characters are all word characters,
hyphens, underscores or dots, and falls back to the fixed name
`extracted_content` exactly when the sanitized core is empty; being a
pure function it is deterministic by construction. -/
theorem c10_sanitize_filename_safe : ∀ u : List Char,
    sanitize_filename u ≠ [] ∧ (sanitize_filename u).length ≤ 100 ∧
    (∀ c ∈ sanitize_filename u, sanitizeKeep c = true) ∧
    (sanitizeCore u = [] → sanitize_filename u = ("extracted_content").data) := by
  intro u
  simp only [sanitize_filename]
  by_cases hlen : 100 < (sanitizeCore u).length
  · rw [if_pos hlen]
    have htake : ((sanitizeCore u).take 100).length = 100 := by
      rw [List.length_take]; omega
    have hne : ¬((sanitizeCore u).take 100).isEmpty = true := by
      intro h0
      rw [List.isEmpty_iff] at h0
      rw [h0] at htake
      simp at htake
    rw [if_neg hne]
    refine ⟨?_, by rw [htake], ?_, ?_⟩
    · intro h0; rw [h0] at htake; simp at htake
    · intro c hc
      exact sanitizeCore_chars u c (List.take_subset _ _ hc)
    · intro h0; rw [h0] at hlen; simp at hlen
  · rw [if_neg hlen]
    by_cases hemp : (sanitizeCore u).isEmpty = true
    · rw [if_pos hemp]
      refine ⟨by decide, by decide, by decide, fun _ => rfl⟩
    · rw [if_neg hemp]
      refine ⟨?_, by omega, ?_, ?_⟩
      · intro h0
        exact hemp (by rw [h0]; rfl)
      · intro c hc; exact sanitizeCore_chars u c hc
      · intro h0; exact absurd (by rw [h0]; rfl) hemp

/-- C10 witness: the invariant applied at inputs exercising the
truncation-free path and the empty-core fallback. -/
theorem c10_witness :
    sanitize_filename (("//+/").data) = ("extracted_content").data :=
  (c10_sanitize_filename_safe (("//+/").data)).2.2.2 (by decide)

/-- `extract_url_content` on an already-visited url is a no-op returning
`None` (src/scrapes/methods.py lines 197-198). -/
theorem euc_visited_eq (oracle : List Char → Option (List Char)) (fuel : Nat)
    {url : List Char} {st : MState} (r : Bool) (d md : Nat) (ii : Bool)
    (hv : url ∈ st.visited) :
    extract_url_content oracle fuel url st r d md ii = (none, st) := by
  cases fuel with
  | zero => rfl
  | succ fuel => simp [extract_url_content, hv]

/-- On an unsupported scheme the url is first added to visited, then
`None` is returned without touching the fetch instrumentation. -/
theorem euc_badscheme_eq (oracle : List Char → Option (List Char)) (fuel : Nat)
    {url : List Char} {st : MState} (r : Bool) (d md : Nat) (ii : Bool)
    (hv : url ∉ st.visited) (hs : isHttpUrl url = false) :
    extract_url_content oracle (fuel+1) url st r d md ii =
      (none, { st with visited := st.visited ++ [url] }) := by
  simp [extract_url_content, hv, hs]

/-- On a fetch failure the url stays visited, is recorded as fetched,
and `None` is returned (the `except` branch). -/
theorem euc_fetchfail_eq (oracle : List Char → Option (List Char)) (fuel : Nat)
    {url : List Char} {st : MState} (r : Bool) (d md : Nat) (ii : Bool)
    (hv : url ∉ st.visited) (hs : isHttpUrl url = true) (ho : oracle url = none) :
    extract_url_content oracle (fuel+1) url st r d md ii =
      (none, { st with visited := st.visited ++ [url], fetched := st.fetched ++ [url] }) := by
  simp [extract_url_content, hv, hs, ho]

/-- Successful fetch without recursion: store the page and stop. -/
theorem euc_success_norec_eq (oracle : List Char → Option (List Char)) (fuel : Nat)
    {url : List Char} {st : MState} (r : Bool) (d md : Nat) (ii : Bool) {mdc : List Char}
    (hv : url ∉ st.visited) (hs : isHttpUrl url = true) (ho : oracle url = some mdc)
    (hnr : ¬(r = true ∧ d < md)) :
    extract_url_content oracle (fuel+1) url st r d md ii =
      (some ⟨url, (if ii then extract_images_from_markdown mdc else (mdc, [])).1,
            (if ii then extract_images_from_markdown mdc else (mdc, [])).2⟩,
       ⟨st.visited ++ [url], st.fetched ++ [url],
        upsertWebsite st.results
          ⟨url, (if ii then extract_images_from_markdown mdc else (mdc, [])).1,
           (if ii then extract_images_from_markdown mdc else (mdc, [])).2⟩⟩) := by
  simp [extract_url_content, hv, hs, ho, hnr]

/-- Successful fetch with recursion: store the page and fold the
recursive extraction over the discovered links. -/
theorem euc_success_rec_eq (oracle : List Char → Option (List Char)) (fuel : Nat)
    {url : List Char} {st : MState} (r : Bool) (d md : Nat) (ii : Bool) {mdc : List Char}
    (hv : url ∉ st.visited) (hs : isHttpUrl url = true) (ho : oracle url = some mdc)
    (hr : r = true ∧ d < md) :
    extract_url_content oracle (fuel+1) url st r d md ii =
      (some ⟨url, (if ii then extract_images_from_markdown mdc else (mdc, [])).1,
            (if ii then extract_images_from_markdown mdc else (mdc, [])).2⟩,
       (extract_urls_from_markdown mdc url).foldl
         (fun s lu => if lu ∈ s.visited then s
           else (extract_url_content oracle fuel lu s r (d+1) md ii).2)
         ⟨st.visited ++ [url], st.fetched ++ [url],
          upsertWebsite st.results
            ⟨url, (if ii then extract_images_from_markdown mdc else (mdc, [])).1,
             (if ii then extract_images_from_markdown mdc else (mdc, [])).2⟩⟩) := by
  simp [extract_url_content, hv, hs, ho, hr]

/-- A state predicate preserved by the step survives a fold. -/
theorem foldl_mstate_inv (P : MState → Prop) (step : MState → List Char → MState)
    (hstep : ∀ s u, P s → P (step s u)) :
    ∀ (l : List (List Char)) (s : MState), P s → P (List.foldl step s l) := by
  intro l
  induction l with
  | nil => intro s h; exact h
  | cons x xs ih => intro s h; exact ih (step s x) (hstep s x h)

/-- The visited set of `extract_url_content` only grows. -/
theorem euc_visited_mono (oracle : List Char → Option (List Char)) :
    ∀ (fuel : Nat) (url : List Char) (st : MState) (r : Bool) (d md : Nat) (ii : Bool),
    st.visited ⊆ (extract_url_content oracle fuel url st r d md ii).2.visited := by
  intro fuel
  induction fuel with
  | zero => intro url st r d md ii a ha; exact ha
  | succ fuel ih =>
    intro url st r d md ii
    by_cases hv : url ∈ st.visited
    · rw [euc_visited_eq oracle (fuel+1) r d md ii hv]; exact fun a ha => ha
    · by_cases hs : isHttpUrl url = true
      · cases ho : oracle url with
        | none =>
          rw [euc_fetchfail_eq oracle fuel r d md ii hv hs ho]
          exact fun a ha => List.mem_append_left _ ha
        | some mdc =>
          by_cases hr : r = true ∧ d < md
          · rw [euc_success_rec_eq oracle fuel r d md ii hv hs ho hr]
            intro a ha
            refine foldl_mstate_inv (fun s => a ∈ s.visited) _ ?_ _ _ ?_
            · intro s u hP
              by_cases h2 : u ∈ s.visited
              · rw [if_pos h2]; exact hP
              · rw [if_neg h2]; exact ih u s r (d+1) md ii hP
            · exact List.mem_append_left _ ha
          · rw [euc_success_norec_eq oracle fuel r d md ii hv hs ho hr]
            exact fun a ha => List.mem_append_left _ ha
      · have hs2 : isHttpUrl url = false := by simpa using hs
        rw [euc_badscheme_eq oracle fuel r d md ii hv hs2]
        exact fun a ha => List.mem_append_left _ ha

/-- The fetched list stays duplicate-free and inside the visited set
through any `extract_url_content` call. -/
theorem euc_fetched_inv (oracle : List Char → Option (List Char)) :
    ∀ (fuel : Nat) (url : List Char) (st : MState) (r : Bool) (d md : Nat) (ii : Bool),
    st.fetched.Nodup ∧ (∀ u ∈ st.fetched, u ∈ st.visited) →
    (extract_url_content oracle fuel url st r d md ii).2.fetched.Nodup ∧
      ∀ u ∈ (extract_url_content oracle fuel url st r d md ii).2.fetched,
        u ∈ (extract_url_content oracle fuel url st r d md ii).2.visited := by
  intro fuel
  induction fuel with
  | zero => intro url st r d md ii h; exact h
  | succ fuel ih =>
    intro url st r d md ii h
    by_cases hv : url ∈ st.visited
    · rw [euc_visited_eq oracle (fuel+1) r d md ii hv]; exact h
    · have hnodup2 : (st.fetched ++ [url]).Nodup := by
        refine List.nodup_append.mpr ⟨h.1, List.nodup_singleton url, ?_⟩
        intro a ha hamem
        rw [List.mem_singleton.mp hamem] at ha
        exact hv (h.2 url ha)
      have hmem2 : ∀ u ∈ st.fetched ++ [url], u ∈ st.visited ++ [url] := by
        intro u hu
        rcases List.mem_append.mp hu with h1 | h1
        · exact List.mem_append_left _ (h.2 u h1)
        · exact List.mem_append_right _ h1
      by_cases hs : isHttpUrl url = true
      · cases ho : oracle url with
        | none =>
          rw [euc_fetchfail_eq oracle fuel r d md ii hv hs ho]
          exact ⟨hnodup2, hmem2⟩
        | some mdc =>
          by_cases hr : r = true ∧ d < md
          · rw [euc_success_rec_eq oracle fuel r d md ii hv hs ho hr]
            refine foldl_mstate_inv
              (fun s => s.fetched.Nodup ∧ ∀ u ∈ s.fetched, u ∈ s.visited) _ ?_ _ _
              ⟨hnodup2, hmem2⟩
            intro s u hP
            by_cases h2 : u ∈ s.visited
            · rw [if_pos h2]; exact hP
            · rw [if_neg h2]; exact ih u s r (d+1) md ii hP
          · rw [euc_success_norec_eq oracle fuel r d md ii hv hs ho hr]
            exact ⟨hnodup2, hmem2⟩
      · have hs2 : isHttpUrl url = false := by simpa using hs
        rw [euc_badscheme_eq oracle fuel r d md ii hv hs2]
        refine ⟨h.1, ?_⟩
        intro u hu
        exact List.mem_append_left _ (h.2 u hu)

/-- After any call with fuel, the url is in the visited set. -/
theorem euc_mem_visited (oracle : List Char → Option (List Char)) (fuel : Nat)
    (url : List Char) (st : MState) (r : Bool) (d md : Nat) (ii : Bool) :
    url ∈ (extract_url_content oracle (fuel+1) url st r d md ii).2.visited := by
  by_cases hv : url ∈ st.visited
  · rw [euc_visited_eq oracle (fuel+1) r d md ii hv]; exact hv
  · have hself : url ∈ st.visited ++ [url] :=
      List.mem_append_right _ (List.mem_singleton.mpr rfl)
    by_cases hs : isHttpUrl url = true
    · cases ho : oracle url with
      | none => rw [euc_fetchfail_eq oracle fuel r d md ii hv hs ho]; exact hself
      | some mdc =>
        by_cases hr : r = true ∧ d < md
        · rw [euc_success_rec_eq oracle fuel r d md ii hv hs ho hr]
          refine foldl_mstate_inv (fun s => url ∈ s.visited) _ ?_ _ _ hself
          intro s u hP
          by_cases h2 : u ∈ s.visited
          · rw [if_pos h2]; exact hP
          · rw [if_neg h2]; exact euc_visited_mono oracle fuel u s r (d+1) md ii hP
        · rw [euc_success_norec_eq oracle fuel r d md ii hv hs ho hr]; exact hself
    · have hs2 : isHttpUrl url = false := by simpa using hs
      rw [euc_badscheme_eq oracle fuel r d md ii hv hs2]; exact hself

/-- At least one run happens whenever at least one is allowed. -/
theorem retryGo_pos {α : Type} (f : Nat → Option α) (m i : Nat) :
    1 ≤ (retryGo f i (m+1)).2.1 := by
  cases hf : f i with
  | some a => simp [retryGo, hf]
  | none =>
    cases m with
    | zero => simp [retryGo, hf]
    | succ k => simp [retryGo, hf]

/-- The retry loop performs at most the allowed number of runs and
waits exactly `default_retry_delay` between consecutive runs. -/
theorem retryGo_spec {α : Type} (f : Nat → Option α) :
    ∀ (n i : Nat), (retryGo f i n).2.1 ≤ n ∧
      (retryGo f i n).2.2 = List.replicate ((retryGo f i n).2.1 - 1) default_retry_delay := by
  intro n
  induction n with
  | zero => intro i; exact ⟨Nat.le_refl 0, rfl⟩
  | succ n ih =>
    intro i
    cases hf : f i with
    | some a => simp [retryGo, hf]
    | none =>
      cases n with
      | zero => simp [retryGo, hf]
      | succ m =>
        have h1 := ih (i+1)
        have hpos := retryGo_pos f m (i+1)
        rw [show retryGo f i (m+1+1) =
          ((retryGo f (i+1) (m+1)).1, (retryGo f (i+1) (m+1)).2.1 + 1,
            default_retry_delay :: (retryGo f (i+1) (m+1)).2.2) from by simp [retryGo, hf]]
        refine ⟨Nat.succ_le_succ h1.1, ?_⟩
        rw [h1.2]
        have ha : (retryGo f (i+1) (m+1)).2.1 + 1 - 1 =
            ((retryGo f (i+1) (m+1)).2.1 - 1) + 1 := by omega
        rw [ha, List.replicate_succ]

/-- Batch building appends exactly the batch urls to the visited set. -/
theorem buildBatch_visited (md : Nat) :
    ∀ (frontier : List (List Char × Nat)) (visited : List (List Char)),
    (buildBatch md frontier visited).1 =
      visited ++ (buildBatch md frontier visited).2.map Prod.fst := by
  intro frontier
  induction frontier with
  | nil => intro visited; simp [buildBatch]
  | cons ud rest ih =>
    intro visited
    obtain ⟨u, d⟩ := ud
    by_cases hc : u ∈ visited ∨ md < d
    · rw [show buildBatch md ((u,d)::rest) visited = buildBatch md rest visited from by
        simp [buildBatch, hc]]
      exact ih visited
    · rw [show buildBatch md ((u,d)::rest) visited =
        ((buildBatch md rest (visited ++ [u])).1,
         (u,d) :: (buildBatch md rest (visited ++ [u])).2) from by simp [buildBatch, hc]]
      simp only [List.map_cons]
      rw [ih (visited ++ [u])]
      simp

/-- Urls selected into a batch were not previously visited. -/
theorem buildBatch_fresh (md : Nat) :
    ∀ (frontier : List (List Char × Nat)) (visited : List (List Char)) (u : List Char),
    u ∈ (buildBatch md frontier visited).2.map Prod.fst → u ∉ visited := by
  intro frontier
  induction frontier with
  | nil => intro visited u h; simp [buildBatch] at h
  | cons ud rest ih =>
    intro visited u h
    obtain ⟨u0, d⟩ := ud
    by_cases hc : u0 ∈ visited ∨ md < d
    · rw [show buildBatch md ((u0,d)::rest) visited = buildBatch md rest visited from by
        simp [buildBatch, hc]] at h
      exact ih visited u h
    · rw [show buildBatch md ((u0,d)::rest) visited =
        ((buildBatch md rest (visited ++ [u0])).1,
         (u0,d) :: (buildBatch md rest (visited ++ [u0])).2) from by simp [buildBatch, hc]] at h
      simp only [List.map_cons, List.mem_cons] at h
      rcases h with h | h
      · subst h
        intro hmem
        exact hc (Or.inl hmem)
      · intro hmem
        exact ih (visited ++ [u0]) u h (List.mem_append_left _ hmem)

/-- A single wave's batch carries no duplicate url. -/
theorem buildBatch_nodup (md : Nat) :
    ∀ (frontier : List (List Char × Nat)) (visited : List (List Char)),
    ((buildBatch md frontier visited).2.map Prod.fst).Nodup := by
  intro frontier
  induction frontier with
  | nil => intro visited; simp [buildBatch]
  | cons ud rest ih =>
    intro visited
    obtain ⟨u0, d⟩ := ud
    by_cases hc : u0 ∈ visited ∨ md < d
    · rw [show buildBatch md ((u0,d)::rest) visited = buildBatch md rest visited from by
        simp [buildBatch, hc]]
      exact ih visited
    · rw [show buildBatch md ((u0,d)::rest) visited =
        ((buildBatch md rest (visited ++ [u0])).1,
         (u0,d) :: (buildBatch md rest (visited ++ [u0])).2) from by simp [buildBatch, hc]]
      simp only [List.map_cons]
      refine List.nodup_cons.mpr ⟨?_, ih (visited ++ [u0])⟩
      intro hmem
      exact buildBatch_fresh md rest (visited ++ [u0]) u0 hmem
        (List.mem_append_right _ (List.mem_singleton.mpr rfl))

/-- Across the whole wave loop no url ever appears in two batches: the
concatenation of all batches is duplicate-free. -/
theorem bfsLoop_nodup (fetch : List Char → Nat → Option (List Char)) (md : Nat) (ii : Bool) :
    ∀ (fuel : Nat) (visited : List (List Char)) (frontier : List (List Char × Nat))
      (results : List PageEntry) (batches : List (List (List Char))),
    batches.flatten.Nodup → (∀ u ∈ batches.flatten, u ∈ visited) →
    ((bfsLoop fetch md ii fuel visited frontier results batches).2).flatten.Nodup := by
  intro fuel
  induction fuel with
  | zero => intro v f r b h1 h2; exact h1
  | succ fuel ih =>
    intro v f r b h1 h2
    by_cases hf : f.isEmpty = true
    · rw [show bfsLoop fetch md ii (fuel+1) v f r b = (r, b) from by simp [bfsLoop, hf]]
      exact h1
    · by_cases hb2 : (buildBatch md f v).2.isEmpty = true
      · rw [show bfsLoop fetch md ii (fuel+1) v f r b = (r, b) from by
          simp [bfsLoop, hf, hb2]]
        exact h1
      · rw [show bfsLoop fetch md ii (fuel+1) v f r b =
          bfsLoop fetch md ii fuel (buildBatch md f v).1
            (processBatch md (buildBatch md f v).1
              ((buildBatch md f v).2.map (fun ud => (ud, (run_task fetch ud.1 ii).1)))).2
            (r ++ (processBatch md (buildBatch md f v).1
              ((buildBatch md f v).2.map (fun ud => (ud, (run_task fetch ud.1 ii).1)))).1)
            (b ++ [(buildBatch md f v).2.map Prod.fst]) from by
          simp [bfsLoop, hf, hb2]]
        refine ih _ _ _ _ ?_ ?_
        · rw [List.flatten_append]
          refine List.nodup_append.mpr ⟨h1, by simpa using buildBatch_nodup md f v, ?_⟩
          intro a ha hamem
          have h3 : a ∈ (buildBatch md f v).2.map Prod.fst := by simpa using hamem
          exact buildBatch_fresh md f v a h3 (h2 a ha)
        · intro u hu
          rw [List.flatten_append] at hu
          rw [buildBatch_visited md f v]
          rcases List.mem_append.mp hu with h3 | h3
          · exact List.mem_append_left _ (h2 u h3)
          · exact List.mem_append_right _ (by simpa using h3)

/-- C1: in one crawl run a url is fetched at most once — the
concatenation of all BFS waves' batches is duplicate-free for every
fetch oracle, seed and depth, the recursive single-process variant
never fetches a url twice (its fetched list is duplicate-free from a
fresh state), and on the synthetic cycle a ↔ b the batches are exactly
`[[a], [b]]` and the fetched list exactly `[a, b]`. -/
theorem c1_dedup_invariant :
    (∀ (fetch : List Char → Nat → Option (List Char)) (start : List Char) (md : Nat)
       (ii : Bool), ((extract_website_recursive fetch start md ii).2).flatten.Nodup) ∧
    (∀ (oracle : List Char → Option (List Char)) (fuel : Nat) (url : List Char) (r : Bool)
       (d md : Nat) (ii : Bool),
       (extract_url_content oracle fuel url ⟨[], [], []⟩ r d md ii).2.fetched.Nodup) ∧
    (extract_website_recursive cycFetch (("http://h/a").data) 5 false).2 =
      [[("http://h/a").data], [("http://h/b").data]] ∧
    (extract_url_content cycOracle 6 (("http://h/a").data) ⟨[], [], []⟩
        true 0 5 false).2.fetched =
      [("http://h/a").data, ("http://h/b").data] := by
  refine ⟨?_, ?_, by decide, by decide⟩
  · intro fetch start md ii
    exact bfsLoop_nodup fetch md ii _ _ _ _ _ (by simp) (by simp)
  · intro oracle fuel url r d md ii
    exact (euc_fetched_inv oracle fuel url ⟨[], [], []⟩ r d md ii
      ⟨List.nodup_nil, by simp⟩).1

/-- C2: a task is run at most `max_retries + 1` times (initial run plus
up to 3 retries) with exactly `default_retry_delay = 60` between
consecutive runs; a failed task contributes neither a result entry nor
frontier links; and in the concrete wave where `/a` always fails and
`/b` succeeds, `/a` uses all 4 runs with delays `[60, 60, 60]` and
yields nothing while the seed and the sibling `/b` still produce their
results. -/
theorem c2_retry_then_drop :
    (∀ (α : Type) (f : Nat → Option α),
       (retryGo f 0 (max_retries + 1)).2.1 ≤ max_retries + 1 ∧
       (retryGo f 0 (max_retries + 1)).2.2 =
         List.replicate ((retryGo f 0 (max_retries + 1)).2.1 - 1) default_retry_delay) ∧
    (∀ (md : Nat) (v : List (List Char)) (u : List Char) (d : Nat)
       (rest : List ((List Char × Nat) × Option TaskResult)),
       processBatch md v (((u, d), none) :: rest) = processBatch md v rest) ∧
    ((run_task c2Fetch (("http://ex.com/a").data) false).1 = none ∧
     (run_task c2Fetch (("http://ex.com/a").data) false).2.1 = max_retries + 1 ∧
     (run_task c2Fetch (("http://ex.com/a").data) false).2.2 = [60, 60, 60]) ∧
    extract_website_recursive c2Fetch (("http://ex.com").data) 1 false =
      ([⟨("http://ex.com").data, ("[a](/a) [b](/b)").data, []⟩,
        ⟨("http://ex.com/b").data, ("done").data, []⟩],
       [[("http://ex.com").data], [("http://ex.com/a").data, ("http://ex.com/b").data]]) := by
  refine ⟨?_, ?_, ⟨by decide, by decide, by decide⟩, by decide⟩
  · intro α f
    exact retryGo_spec f (max_retries + 1) 0
  · intro md v u d rest
    rfl

/-- C3: with `max_depth = 0` the BFS crawl produces exactly the seed's
result and one batch `[seed]` whenever the seed task succeeds; with the
recursive flag false the single-process variant stores exactly the seed
page whenever its fetch succeeds; and an entry at depth `d ≥ max_depth`
contributes no links to the next frontier. -/
theorem c3_depth_bound :
    (∀ (fetch : List Char → Nat → Option (List Char)) (start : List Char) (ii : Bool)
       (tr : TaskResult), (run_task fetch start ii).1 = some tr →
       extract_website_recursive fetch start 0 ii =
         ([⟨tr.url, tr.content, tr.images⟩], [[start]])) ∧
    (∀ (oracle : List Char → Option (List Char)) (fuel : Nat) (url mdc : List Char)
       (d md : Nat) (ii : Bool), isHttpUrl url = true → oracle url = some mdc →
       (extract_url_content oracle (fuel+1) url ⟨[], [], []⟩ false d md ii).2.results =
         [⟨url, (if ii then extract_images_from_markdown mdc else (mdc, [])).1,
           (if ii then extract_images_from_markdown mdc else (mdc, [])).2⟩]) ∧
    (∀ (md : Nat) (visited : List (List Char)) (d : Nat) (links : List (List Char)),
       md ≤ d → collectLinks md visited d links = []) := by
  refine ⟨?_, ?_, ?_⟩
  · intro fetch start ii tr h
    simp [extract_website_recursive, bfsLoop, buildBatch, processBatch, collectLinks, h]
  · intro oracle fuel url mdc d md ii hs ho
    rw [euc_success_norec_eq oracle fuel false d md ii (by simp) hs ho (by simp)]
    simp [upsertWebsite]
  · intro md visited d links h
    simp [collectLinks, Nat.not_lt.mpr h]

/-- C3 witness: the depth-0 crawl of the cycle fixture produces exactly
the seed result, via the theorem's first part. -/
theorem c3_witness :
    extract_website_recursive cycFetch (("http://h/a").data) 0 false =
      ([⟨("http://h/a").data, ("[x](http://h/b)").data, []⟩], [[("http://h/a").data]]) :=
  c3_depth_bound.1 cycFetch (("http://h/a").data) false
    ⟨("http://h/a").data, ("[x](http://h/b)").data, [], [("http://h/b").data]⟩ (by decide)

/-- C7 counterexample: on the non-web seed `ftp://example.com` the
scrape-variant `extract_url_content` performs no fetch and produces no
result, but it does NOT surface any unsupported-scheme error: it
returns the plain `none` — the same value as for a benign
already-visited skip — with the url silently marked visited, refuting
the claim that the error is surfaced rather than swallowed in every
crawl variant. -/
theorem c7_counterexample :
    extract_url_content cycOracle 6 (("ftp://example.com").data) ⟨[], [], []⟩ true 0 5 false =
      (none, ⟨[("ftp://example.com").data], [], []⟩) := by decide

/-- C7 (amended): for every seed url not beginning with `http://` or
`https://`, neither variant fetches it and neither produces a result;
the single-page CLI variant (`extract_url_to_markdown`, src/main.py)
surfaces the error by raising
`ValueError("URL must start with http:// or https://")`, while the
scrape variant (`extract_url_content`, src/scrapes/methods.py) returns
`None` silently with the url still added to the visited set. -/
theorem c7_unsupported_scheme :
    (∀ (oracle : List Char → Option (List Char)) (fuel : Nat) (url : List Char) (st : MState)
       (r : Bool) (d md : Nat) (ii : Bool), url ∉ st.visited → isHttpUrl url = false →
       extract_url_content oracle (fuel+1) url st r d md ii =
         (none, { st with visited := st.visited ++ [url] })) ∧
    (∀ (oracle : List Char → Option (List Char)) (fuel : Nat) (url : List Char)
       (visited : List (List Char)) (r : Bool) (d md : Nat), url ∉ visited →
       isHttpUrl url = false →
       extract_url_to_markdown oracle (fuel+1) url visited r d md =
         (.error (("URL must start with http:// or https://").data), visited ++ [url])) := by
  constructor
  · intro oracle fuel url st r d md ii hv hs
    exact euc_badscheme_eq oracle fuel r d md ii hv hs
  · intro oracle fuel url visited r d md hv hs
    simp [extract_url_to_markdown, hv, hs]

/-- C7 witness: both amended branches applied at the concrete seed
`ftp://example.com`. -/
theorem c7_witness :
    extract_url_content cycOracle 6 (("ftp://example.com").data) ⟨[], [], []⟩ true 0 5 false =
      (none, { (⟨[], [], []⟩ : MState) with visited := [] ++ [("ftp://example.com").data] }) ∧
    extract_url_to_markdown cycOracle 6 (("ftp://example.com").data) [] true 0 2 =
      (.error (("URL must start with http:// or https://").data),
       [] ++ [("ftp://example.com").data]) :=
  ⟨c7_unsupported_scheme.1 cycOracle 5 (("ftp://example.com").data) ⟨[], [], []⟩ true 0 5 false
     (by decide) (by decide),
   c7_unsupported_scheme.2 cycOracle 5 (("ftp://example.com").data) [] true 0 2
     (by decide) (by decide)⟩

/-- C9: `extract_url_content` inserts the url into the visited set
before the scheme check and before the fetch, and the url is in the
visited set after every call (fuel positive); a url already visited is
skipped with `(None, unchanged state)` so a previously failed url is
never re-attempted; an unsupported-scheme url is left visited with no
fetch recorded; and a failed fetch returns `None` (no exception escapes)
with the url visited and its fetch recorded. -/
theorem c9_visited_insertion_semantics :
    (∀ (oracle : List Char → Option (List Char)) (fuel : Nat) (url : List Char) (st : MState)
       (r : Bool) (d md : Nat) (ii : Bool),
       url ∈ (extract_url_content oracle (fuel+1) url st r d md ii).2.visited) ∧
    (∀ (oracle : List Char → Option (List Char)) (fuel : Nat) (url : List Char) (st : MState)
       (r : Bool) (d md : Nat) (ii : Bool), url ∈ st.visited →
       extract_url_content oracle fuel url st r d md ii = (none, st)) ∧
    (∀ (oracle : List Char → Option (List Char)) (fuel : Nat) (url : List Char) (st : MState)
       (r : Bool) (d md : Nat) (ii : Bool), url ∉ st.visited → isHttpUrl url = false →
       extract_url_content oracle (fuel+1) url st r d md ii =
         (none, { st with visited := st.visited ++ [url] })) ∧
    (∀ (oracle : List Char → Option (List Char)) (fuel : Nat) (url : List Char) (st : MState)
       (r : Bool) (d md : Nat) (ii : Bool), url ∉ st.visited → isHttpUrl url = true →
       oracle url = none →
       extract_url_content oracle (fuel+1) url st r d md ii =
         (none, (⟨st.visited ++ [url], st.fetched ++ [url], st.results⟩ : MState))) :=
  ⟨fun oracle fuel url st r d md ii => euc_mem_visited oracle fuel url st r d md ii,
   fun oracle fuel _ _ r d md ii hv => euc_visited_eq oracle fuel r d md ii hv,
   fun oracle fuel _ _ r d md ii hv hs => euc_badscheme_eq oracle fuel r d md ii hv hs,
   fun oracle fuel _ _ r d md ii hv hs ho => euc_fetchfail_eq oracle fuel r d md ii hv hs ho⟩

/-- C9 witness: all four clauses applied at concrete states, including a
skip of an already-visited url and a fetch failure leaving the url
visited. -/
theorem c9_witness :
    ("http://h/a").data ∈ (extract_url_content cycOracle 6 (("http://h/a").data)
      ⟨[], [], []⟩ true 0 5 false).2.visited ∧
    extract_url_content cycOracle 6 (("http://h/a").data)
      ⟨[("http://h/a").data], [], []⟩ true 0 5 false =
      (none, ⟨[("http://h/a").data], [], []⟩) ∧
    extract_url_content cycOracle 6 (("ftp://x").data) ⟨[], [], []⟩ true 0 5 false =
      (none, { (⟨[], [], []⟩ : MState) with visited := [] ++ [("ftp://x").data] }) ∧
    extract_url_content cycOracle 6 (("http://dead").data) ⟨[], [], []⟩ true 0 5 false =
      (none, (⟨[] ++ [("http://dead").data], [] ++ [("http://dead").data], []⟩ : MState)) :=
  ⟨c9_visited_insertion_semantics.1 cycOracle 5 (("http://h/a").data) ⟨[], [], []⟩
     true 0 5 false,
   c9_visited_insertion_semantics.2.1 cycOracle 6 (("http://h/a").data)
     ⟨[("http://h/a").data], [], []⟩ true 0 5 false (by decide),
   c9_visited_insertion_semantics.2.2.1 cycOracle 5 (("ftp://x").data) ⟨[], [], []⟩
     true 0 5 false (by decide) (by decide),
   c9_visited_insertion_semantics.2.2.2 cycOracle 5 (("http://dead").data) ⟨[], [], []⟩
     true 0 5 false (by decide) (by decide) (by decide)⟩
